import Mathlib

/-!
Verification of the job-intake core of the recruitment-manager repository
(`src/frontend/src/pages/JobIntakeDemo.tsx`): skill normalization, fit
scoring, decision policy, skill-list extraction and the audit log.

Strings are modelled as lists of characters (`Str`).  JavaScript's
`toLowerCase` is modelled at the Basic Latin level by `Char.toLower`,
which matches the source on every character that can survive the
normalizer's character class `[a-z0-9+#.]`.
-/

namespace RecruitCore

abbrev Str := List Char

/-- The JavaScript `\s` / `trim` whitespace class, by code point. -/
def isWsChar (c : Char) : Bool :=
  let n := c.toNat
  (9 ≤ n && n ≤ 13) || n == 32 || n == 160 || n == 5760 ||
  (8192 ≤ n && n ≤ 8202) || n == 8232 || n == 8233 ||
  n == 8239 || n == 8287 || n == 12288 || n == 65279

/-- The character class `[a-z0-9+#.]` kept by the skill normalizer. -/
def isSkillChar (c : Char) : Bool :=
  let n := c.toNat
  (97 ≤ n && n ≤ 122) || (48 ≤ n && n ≤ 57) || n == 43 || n == 35 || n == 46

/-- `replace(/[^a-z0-9+#.]/g, ' ')` acting on one character. -/
def replaceChar (c : Char) : Char :=
  if isSkillChar c then c else ' '

/-- `replace(/\s+/g, ' ')`: collapse every maximal whitespace run to one space. -/
def collapseWs : Str → Str
  | [] => []
  | [c] => [if isWsChar c then ' ' else c]
  | c :: d :: cs =>
    if isWsChar c && isWsChar d then collapseWs (d :: cs)
    else (if isWsChar c then ' ' else c) :: collapseWs (d :: cs)

/-- JavaScript `String.prototype.trim`. -/
def trimWs (l : Str) : Str :=
  ((l.dropWhile isWsChar).reverse.dropWhile isWsChar).reverse

/-- The skill normalizer `norm` of `scoreCandidateFit`:
`s.toLowerCase().replace(/[^a-z0-9+#.]/g, ' ').replace(/\s+/g, ' ').trim()`. -/
def norm (s : Str) : Str :=
  trimWs (collapseWs ((s.map Char.toLower).map replaceChar))

/-- JavaScript `s.includes(r)`: `r` occurs contiguously in `s`. -/
def jsIncludes : Str → Str → Bool
  | [], r => r.isEmpty
  | a :: t, r => r.isPrefixOf (a :: t) || jsIncludes t r

structure JobProfile where
  title : Str
  requiredSkills : List Str
  niceToHaveSkills : List Str
  minYearsExperience : Option Int
  locations : List Str
  salaryHint : Option Str
deriving DecidableEq

structure CandidateProfile where
  name : Str
  skills : List Str
  yearsExperience : Option Int
deriving DecidableEq

/-- The reason strings emitted by `scoreCandidateFit`, one constructor per
template literal of the source. -/
inductive Reason where
  | noSkills
  | requiredMatched (n : Nat)
  | niceMatched (n : Nat)
  | expMeets (y : Int)
  | expBelow (y m : Int)
deriving DecidableEq

structure ScoreResult where
  score : Int
  reasons : List Reason
deriving DecidableEq

/-- The body of the required/nice-to-have loops' condition:
`r && Array.from(cand).some(s => s.includes(r) || r.includes(s))`. -/
def skillMatches (cand : List Str) (r : Str) : Bool :=
  !r.isEmpty && cand.any (fun s => jsIncludes s r || jsIncludes r s)

/-- `new Set(candidate.skills.map(norm))`, iterated in insertion order. -/
def candNorm (c : CandidateProfile) : List Str :=
  (c.skills.map norm).eraseDups

/-- Number of required skills matched (the loop increments by one per match). -/
def reqMatchCount (j : JobProfile) (c : CandidateProfile) : Nat :=
  (j.requiredSkills.map norm).countP (skillMatches (candNorm c))

/-- Number of nice-to-have skills matched. -/
def niceMatchCount (j : JobProfile) (c : CandidateProfile) : Nat :=
  (j.niceToHaveSkills.map norm).countP (skillMatches (candNorm c))

/-- The experience factor.  The source guards it with
`if (job.minYearsExperience && candidate.yearsExperience)`, JavaScript
truthiness: absent values and the number `0` both skip the factor. -/
def expPart : Option Int → Option Int → Int × List Reason
  | some m, some y =>
    if m = 0 ∨ y = 0 then (0, [])
    else if m ≤ y then (12, [Reason.expMeets y]) else (0, [Reason.expBelow y m])
  | _, _ => (0, [])

/-- `scoreCandidateFit(job, candidate)`. -/
def scoreCandidateFit (j : JobProfile) (c : CandidateProfile) : ScoreResult :=
  if c.skills.isEmpty then ⟨0, [Reason.noSkills]⟩
  else
    let req := reqMatchCount j c
    let nice := niceMatchCount j c
    let ep := expPart j.minYearsExperience c.yearsExperience
    ⟨min 100 (max 0 (20 * (req : Int) + 8 * (nice : Int) + ep.1)),
      (if req ≠ 0 then [Reason.requiredMatched req] else []) ++
      (if nice ≠ 0 then [Reason.niceMatched nice] else []) ++
      ep.2⟩

inductive Decision where
  | proceed_to_interview
  | needs_review
  | reject_draft
deriving DecidableEq

/-- The decision policy of `handleAutoDecision`:
`score >= 80 ? 'proceed_to_interview' : score >= 50 ? 'needs_review' : 'reject_draft'`. -/
def decideAction (score : Int) : Decision :=
  if score ≥ 80 then Decision.proceed_to_interview
  else if score ≥ 50 then Decision.needs_review
  else Decision.reject_draft

structure AuditEntry where
  id : String
  action : String
  details : String
  timestamp : Nat
deriving DecidableEq

/-- `addAudit`: `setAudit(prev => [{ id, action, details, timestamp }, ...prev])`.
The fresh identifier and timestamp are inputs of the model. -/
def addAudit (id : String) (timestamp : Nat) (action details : String)
    (prev : List AuditEntry) : List AuditEntry :=
  ⟨id, action, details, timestamp⟩ :: prev

/-! Normal-form predicates used to reason about the normalizer. -/

/-- A character the normalizer may keep: in the kept class, or a space. -/
def okChar (c : Char) : Bool := isSkillChar c || c == ' '

/-- The first character, if any, is not whitespace. -/
def headNotWs : Str → Bool
  | [] => true
  | c :: _ => !isWsChar c

/-- The last character, if any, is not whitespace. -/
def lastNotWs (l : Str) : Bool := headNotWs l.reverse

/-- No two adjacent whitespace characters. -/
def noAdjWs : Str → Bool
  | c :: d :: cs => (!(isWsChar c && isWsChar d)) && noAdjWs (d :: cs)
  | _ => true

/-- Whether a reason comes from the experience factor. -/
def isExpReason : Reason → Bool
  | Reason.expMeets _ => true
  | Reason.expBelow _ _ => true
  | _ => false

/-! The skill-list half of `extractJobProfile`: the regex captures
`(skills|required skills|requirements)[:\-]([^\n]+)` and
`(nice to have|preferred)[:\-]([^\n]+)` (case-insensitive, leftmost match),
and the split on `,|•|•|\||\/|\n| and ` (case-insensitive). -/

/-- One of the split delimiters that is a single character. -/
def isDelimChar (c : Char) : Bool :=
  c == ',' || c == Char.ofNat 8226 || c == '|' || c == '/' || c == '\n'

/-- Prepend a character to the first token of a split result. -/
def consHead (c : Char) : List Str → List Str
  | [] => [[c]]
  | t :: ts => (c :: t) :: ts

/-- `String.prototype.split` against `,|•|•|\||\/|\n| and ` (the word
delimiter matched case-insensitively). -/
def splitSkillDelims : Str → List Str
  | [] => [[]]
  | c :: a :: n :: d :: e :: rest =>
    if isDelimChar c then [] :: splitSkillDelims (a :: n :: d :: e :: rest)
    else if c == ' ' && a.toLower == 'a' && n.toLower == 'n' && d.toLower == 'd' && e == ' '
    then [] :: splitSkillDelims rest
    else consHead c (splitSkillDelims (a :: n :: d :: e :: rest))
  | c :: cs =>
    if isDelimChar c then [] :: splitSkillDelims cs
    else consHead c (splitSkillDelims cs)

/-- Strip a lowercase pattern from the front of the text, matching
case-insensitively; `none` if it does not match. -/
def stripPrefixCI : Str → Str → Option Str
  | [], l => some l
  | _ :: _, [] => none
  | p :: ps, c :: cs => if c.toLower == p then stripPrefixCI ps cs else none

/-- Try the full pattern (one keyword alternative, then `:` or `-`, then a
non-empty run of non-newline characters) at the current position; return the
second capture group. -/
def tryLabelAt (keywords : List Str) (l : Str) : Option Str :=
  keywords.findSome? (fun k =>
    match stripPrefixCI k l with
    | none => none
    | some rest =>
      match rest with
      | [] => none
      | c :: tail =>
        if c == ':' || c == '-' then
          let cap := tail.takeWhile (fun x => !(x == '\n'))
          if cap.isEmpty then none else some cap
        else none)

/-- `regex.exec(text)?.[2]`: scan positions left to right, first full match
wins. -/
def scanLabel (keywords : List Str) : Str → Option Str
  | [] => none
  | l@(_ :: t) =>
    match tryLabelAt keywords l with
    | some cap => some cap
    | none => scanLabel keywords t

def requiredKeywords : List Str :=
  [("skills".data), ("required skills".data), ("requirements".data)]

def niceKeywords : List Str :=
  [("nice to have".data), ("preferred".data)]

/-- `(regex.exec(text)?.[2] || '').split(...).map(s => s.trim()).filter(Boolean)`. -/
def extractSkillList (keywords : List Str) (text : Str) : List Str :=
  ((splitSkillDelims ((scanLabel keywords text).getD [])).map trimWs).filter
    (fun s => !s.isEmpty)

/-- The `requiredSkills` field of `extractJobProfile`. -/
def extractRequiredSkills (text : Str) : List Str :=
  extractSkillList requiredKeywords text

/-- The `niceToHaveSkills` field of `extractJobProfile`. -/
def extractNiceToHaveSkills (text : Str) : List Str :=
  extractSkillList niceKeywords text

/-! Concrete profiles used as test inputs. -/

/-- Scenario B job: requires React and Node.js, Docker nice to have, 3+ years. -/
def jobB : JobProfile :=
  ⟨[], [("React".data), ("Node.js".data)], [("Docker".data)], some 3, [], none⟩

/-- Scenario B candidate: skills react and docker, 4 years. -/
def candB : CandidateProfile :=
  ⟨[], [("react".data), ("docker".data)], some 4⟩

/-- A job whose stated minimum experience is the number 0. -/
def jobMinZero : JobProfile := ⟨[], [], [], some 0, [], none⟩

/-- A candidate with one skill and 5 years of experience. -/
def candFiveYears : CandidateProfile := ⟨[], [("x".data)], some 5⟩

/-- A job requiring only React. -/
def jobReactOnly : JobProfile := ⟨[], [("React".data)], [], none, [], none⟩

/-- A candidate whose single skill normalizes to the empty string. -/
def candMalformed : CandidateProfile := ⟨[], [("!!!".data)], none⟩

/-- A job with no skill requirements and no experience threshold. -/
def jobEmpty : JobProfile := ⟨[], [], [], none, [], none⟩

/-- A candidate with one skill and no stated experience. -/
def candOneSkill : CandidateProfile := ⟨[], [("x".data)], none⟩

/-- A candidate with no skills at all. -/
def candNoSkills : CandidateProfile := ⟨[], [], none⟩

/-! Character-level facts. -/

theorem ws_space : isWsChar ' ' = true := by decide

theorem okChar_space : okChar ' ' = true := by decide

theorem skillChar_not_ws (c : Char) (h : isSkillChar c = true) : isWsChar c = false := by
  simp only [isSkillChar, Bool.or_eq_true, Bool.and_eq_true, decide_eq_true_eq,
    beq_iff_eq] at h
  simp only [isWsChar, Bool.or_eq_false_iff, Bool.and_eq_false_iff,
    decide_eq_false_iff_not, beq_eq_false_iff_ne, ne_eq]
  omega

theorem okChar_ws_eq_space (c : Char) (h1 : okChar c = true) (h2 : isWsChar c = true) :
    c = ' ' := by
  rcases Bool.or_eq_true_iff.mp h1 with hs | hsp
  · rw [skillChar_not_ws c hs] at h2; exact absurd h2 (by simp)
  · exact beq_iff_eq.mp hsp

theorem toLower_fix (c : Char) (h : okChar c = true) : Char.toLower c = c := by
  have hn : ¬(c.toNat ≥ 65 ∧ c.toNat ≤ 90) := by
    rcases Bool.or_eq_true_iff.mp h with hs | hsp
    · simp only [isSkillChar, Bool.or_eq_true, Bool.and_eq_true, decide_eq_true_eq,
        beq_iff_eq] at hs
      omega
    · rw [beq_iff_eq.mp hsp]; decide
  simp only [Char.toLower, hn, if_false, ite_eq_right_iff]

theorem replaceChar_fix (c : Char) (h : okChar c = true) : replaceChar c = c := by
  unfold replaceChar
  split
  · rfl
  · rcases Bool.or_eq_true_iff.mp h with hs | hsp
    · simp_all
    · exact (beq_iff_eq.mp hsp).symm

theorem collapse_char_fix (c : Char) (h : okChar c = true) :
    (if isWsChar c then ' ' else c) = c := by
  split
  · exact (okChar_ws_eq_space c h (by assumption)).symm
  · rfl

theorem map_id_of_fix {f : Char → Char} (l : Str) (h : ∀ c ∈ l, f c = c) :
    l.map f = l := by
  induction l with
  | nil => rfl
  | cons a t ih =>
    simp only [List.map_cons, h a (by simp), ih (fun c hc => h c (by simp [hc]))]

/-! Facts about whitespace collapsing. -/

theorem mem_collapseWs (c : Char) (l : Str) (h : c ∈ collapseWs l) : c ∈ l ∨ c = ' ' := by
  induction l with
  | nil => simp [collapseWs] at h
  | cons a t ih =>
    cases t with
    | nil =>
      simp only [collapseWs, List.mem_singleton] at h
      subst h
      split
      · exact Or.inr rfl
      · exact Or.inl (by simp)
    | cons b s =>
      rw [collapseWs] at h
      split at h
      · rcases ih h with hm | hsp
        · exact Or.inl (List.mem_cons_of_mem a hm)
        · exact Or.inr hsp
      · rcases List.mem_cons.mp h with heq | hm
        · subst heq
          split
          · exact Or.inr rfl
          · exact Or.inl (by simp)
        · rcases ih hm with hmm | hsp
          · exact Or.inl (List.mem_cons_of_mem a hmm)
          · exact Or.inr hsp

theorem collapse_head (d : Char) (cs : Str) (h : isWsChar d = false) :
    ∃ t, collapseWs (d :: cs) = d :: t := by
  cases cs with
  | nil => exact ⟨[], by simp [collapseWs, h]⟩
  | cons e cs' =>
    refine ⟨collapseWs (e :: cs'), ?_⟩
    rw [collapseWs]
    rw [if_neg (by simp [h]), if_neg (by simp [h])]

theorem noAdjWs_tail (a : Char) (l : Str) (h : noAdjWs (a :: l) = true) :
    noAdjWs l = true := by
  cases l with
  | nil => rfl
  | cons b s =>
    rw [noAdjWs, Bool.and_eq_true] at h
    exact h.2

theorem noAdjWs_collapseWs (l : Str) : noAdjWs (collapseWs l) = true := by
  induction l with
  | nil => rfl
  | cons a t ih =>
    cases t with
    | nil =>
      rw [collapseWs]
      rfl
    | cons b s =>
      rw [collapseWs]
      split
      · exact ih
      · rename_i hcond
        have hb : isWsChar a = true → isWsChar b = false := by
          intro ha
          cases hB : isWsChar b
          · rfl
          · exact absurd (by simp [ha, hB]) hcond
        by_cases hwa : isWsChar a = true
        · have hbf := hb hwa
          obtain ⟨t', ht'⟩ := collapse_head b s hbf
          rw [ht', if_pos hwa, noAdjWs, Bool.and_eq_true]
          refine ⟨by simp [hbf], ?_⟩
          rw [← ht']
          exact ih
        · have hwa' : isWsChar a = false := by
            cases hA : isWsChar a
            · rfl
            · exact absurd hA hwa
          rw [if_neg hwa]
          cases hc : collapseWs (b :: s) with
          | nil => rfl
          | cons y t' =>
            rw [noAdjWs, Bool.and_eq_true]
            refine ⟨by simp [hwa'], ?_⟩
            rw [← hc]
            exact ih

theorem noAdjWs_append_right (t l : Str) (h : noAdjWs (t ++ l) = true) :
    noAdjWs l = true := by
  induction t with
  | nil => exact h
  | cons a t' ih => exact ih (noAdjWs_tail a (t' ++ l) h)

theorem noAdjWs_iff_chain (l : Str) :
    noAdjWs l = true ↔ l.Chain' (fun a b => ¬(isWsChar a = true ∧ isWsChar b = true)) := by
  induction l with
  | nil => simp [noAdjWs]
  | cons a t ih =>
    cases t with
    | nil => simp [noAdjWs]
    | cons b s =>
      rw [noAdjWs, Bool.and_eq_true, List.chain'_cons, ← ih]
      apply and_congr_left'
      cases isWsChar a <;> cases isWsChar b <;> simp

theorem noAdjWs_reverse_iff (l : Str) :
    noAdjWs l.reverse = true ↔ noAdjWs l = true := by
  rw [noAdjWs_iff_chain, noAdjWs_iff_chain, List.chain'_reverse]
  constructor
  · intro h
    exact h.imp (fun a b hab => fun hc => hab ⟨hc.2, hc.1⟩)
  · intro h
    exact h.imp (fun a b hab => fun hc => hab ⟨hc.2, hc.1⟩)

theorem noAdjWs_dropWhile (l : Str) (h : noAdjWs l = true) :
    noAdjWs (l.dropWhile isWsChar) = true := by
  obtain ⟨t, ht⟩ := List.dropWhile_suffix (l := l) isWsChar
  exact noAdjWs_append_right t _ (by rw [ht]; exact h)

/-! Facts about trimming. -/

theorem headNotWs_dropWhile (l : Str) : headNotWs (l.dropWhile isWsChar) = true := by
  induction l with
  | nil => rfl
  | cons a t ih =>
    rw [List.dropWhile_cons]
    split
    · exact ih
    · rename_i ha
      simp only [headNotWs, Bool.not_eq_true']
      cases hA : isWsChar a
      · rfl
      · exact absurd hA ha

theorem dropWhile_of_headNot (l : Str) (h : headNotWs l = true) :
    l.dropWhile isWsChar = l := by
  cases l with
  | nil => rfl
  | cons a t =>
    rw [List.dropWhile_cons, if_neg]
    simp only [headNotWs, Bool.not_eq_true'] at h
    simp [h]

theorem getLast?_dropWhile_ne (l : Str) (h : l.dropWhile isWsChar ≠ []) :
    (l.dropWhile isWsChar).getLast? = l.getLast? := by
  induction l with
  | nil => simp at h
  | cons a t ih =>
    rw [List.dropWhile_cons]
    rw [List.dropWhile_cons] at h
    split
    · rename_i ha
      rw [if_pos ha] at h
      have ht : t ≠ [] := by
        intro he
        subst he
        simp [List.dropWhile] at h
      rw [ih h]
      cases t with
      | nil => exact absurd rfl ht
      | cons b s => rw [List.getLast?_cons_cons]
    · rfl

theorem headNotWs_iff_head? (l : Str) :
    headNotWs l = true ↔ ∀ a, l.head? = some a → isWsChar a = false := by
  cases l with
  | nil => simp [headNotWs]
  | cons a t => simp [headNotWs]

theorem headNotWs_trimWs (l : Str) : headNotWs (trimWs l) = true := by
  unfold trimWs
  by_cases hm : (l.dropWhile isWsChar).reverse.dropWhile isWsChar = []
  · rw [hm]; rfl
  · rw [headNotWs_iff_head?]
    intro a ha
    rw [List.head?_reverse, getLast?_dropWhile_ne _ hm, List.getLast?_reverse] at ha
    exact (headNotWs_iff_head? _).mp (headNotWs_dropWhile l) a ha

theorem lastNotWs_trimWs (l : Str) : lastNotWs (trimWs l) = true := by
  unfold lastNotWs trimWs
  rw [List.reverse_reverse]
  exact headNotWs_dropWhile _

theorem trimWs_of_clean (l : Str) (hh : headNotWs l = true) (hl : lastNotWs l = true) :
    trimWs l = l := by
  unfold trimWs
  rw [dropWhile_of_headNot l hh, dropWhile_of_headNot l.reverse hl, List.reverse_reverse]

theorem collapseWs_of_clean (l : Str) (hok : ∀ c ∈ l, okChar c = true)
    (hadj : noAdjWs l = true) : collapseWs l = l := by
  induction l with
  | nil => rfl
  | cons a t ih =>
    cases t with
    | nil =>
      rw [collapseWs, collapse_char_fix a (hok a (by simp))]
    | cons b s =>
      rw [collapseWs]
      rw [noAdjWs, Bool.and_eq_true] at hadj
      have hcond : (isWsChar a && isWsChar b) = false := by
        cases hA : isWsChar a <;> cases hB : isWsChar b <;> simp_all
      rw [if_neg (by simp [hcond]), collapse_char_fix a (hok a (by simp))]
      rw [ih (fun c hc => hok c (by simp [hc])) hadj.2]

theorem mem_trimWs (c : Char) (l : Str) (h : c ∈ trimWs l) : c ∈ l := by
  unfold trimWs at h
  rw [List.mem_reverse] at h
  have h1 := (List.dropWhile_suffix (l := (l.dropWhile isWsChar).reverse) isWsChar).subset h
  rw [List.mem_reverse] at h1
  exact (List.dropWhile_suffix (l := l) isWsChar).subset h1

/-! Putting it together: the output of `norm` is in normal form, and `norm`
fixes every normal-form string. -/

theorem okChar_replaceChar (a : Char) : okChar (replaceChar a) = true := by
  unfold replaceChar
  split
  · rename_i h
    unfold okChar
    simp [h]
  · exact okChar_space

theorem norm_chars (s : Str) : ∀ c ∈ norm s, okChar c = true := by
  intro c hc
  unfold norm at hc
  rcases mem_collapseWs c _ (mem_trimWs c _ hc) with hm | hsp
  · obtain ⟨a, _, ha⟩ := List.mem_map.mp hm
    rw [← ha]
    exact okChar_replaceChar a
  · rw [hsp]
    exact okChar_space

theorem norm_noAdjWs (s : Str) : noAdjWs (norm s) = true := by
  unfold norm trimWs
  apply (noAdjWs_reverse_iff _).mpr
  apply noAdjWs_dropWhile
  apply (noAdjWs_reverse_iff _).mpr
  apply noAdjWs_dropWhile
  exact noAdjWs_collapseWs _

theorem norm_fix (t : Str) (hok : ∀ c ∈ t, okChar c = true) (hadj : noAdjWs t = true)
    (hh : headNotWs t = true) (hl : lastNotWs t = true) : norm t = t := by
  unfold norm
  rw [map_id_of_fix t (fun c hc => toLower_fix c (hok c hc))]
  rw [map_id_of_fix t (fun c hc => replaceChar_fix c (hok c hc))]
  rw [collapseWs_of_clean t hok hadj]
  exact trimWs_of_clean t hh hl

/-- C6: the skill normalizer (lowercase; replace every character outside
lowercase letters, digits, `+`, `#`, `.` with a space; collapse whitespace
runs; trim) is idempotent: `norm (norm s) = norm s` for every string. -/
theorem norm_idempotent (s : Str) : norm (norm s) = norm s :=
  norm_fix (norm s) (norm_chars s) (norm_noAdjWs s)
    (by unfold norm; exact headNotWs_trimWs _)
    (by unfold norm; exact lastNotWs_trimWs _)

/-! Facts about the scorer. -/

theorem scoreCandidateFit_of_ne (j : JobProfile) (c : CandidateProfile)
    (h : c.skills ≠ []) :
    scoreCandidateFit j c =
      ⟨min 100 (max 0 (20 * (reqMatchCount j c : Int) + 8 * (niceMatchCount j c : Int) +
          (expPart j.minYearsExperience c.yearsExperience).1)),
        (if reqMatchCount j c ≠ 0 then [Reason.requiredMatched (reqMatchCount j c)] else []) ++
        (if niceMatchCount j c ≠ 0 then [Reason.niceMatched (niceMatchCount j c)] else []) ++
        (expPart j.minYearsExperience c.yearsExperience).2⟩ := by
  unfold scoreCandidateFit
  rw [if_neg (by simp [List.isEmpty_iff, h])]

theorem expPart_reasons_len (mo yo : Option Int) : (expPart mo yo).2.length ≤ 1 := by
  cases mo <;> cases yo <;> simp only [expPart] <;> try simp
  split_ifs <;> simp

theorem expPart_all_exp (mo yo : Option Int) :
    (expPart mo yo).2.filter isExpReason = (expPart mo yo).2 := by
  cases mo <;> cases yo <;> simp only [expPart] <;> try simp
  split_ifs <;> simp [isExpReason]

theorem jsIncludes_nil (l : Str) : jsIncludes l [] = true := by
  cases l with
  | nil => rfl
  | cons a t => rw [jsIncludes]; rfl

theorem eraseDupsLoop_all_nil (as : List Str) (h : ∀ x ∈ as, x = []) :
    List.eraseDups.loop as [([] : Str)] = [[]] := by
  induction as with
  | nil => rfl
  | cons a t ih =>
    rw [List.eraseDups.loop]
    rw [h a (by simp)]
    have : List.elem ([] : Str) [([] : Str)] = true := rfl
    rw [this]
    exact ih (fun x hx => h x (by simp [hx]))

theorem candNorm_all_nil (c : CandidateProfile) (hne : c.skills ≠ [])
    (hall : ∀ s ∈ c.skills, norm s = []) : candNorm c = [[]] := by
  unfold candNorm
  cases hs : c.skills with
  | nil => exact absurd hs hne
  | cons a t =>
    rw [List.map_cons, hall a (by rw [hs]; simp)]
    rw [List.eraseDups, List.eraseDups.loop]
    have : List.elem ([] : Str) ([] : List Str) = false := rfl
    rw [this]
    apply eraseDupsLoop_all_nil
    intro x hx
    obtain ⟨b, hb, hbx⟩ := List.mem_map.mp hx
    rw [← hbx]
    exact hall b (by rw [hs]; simp [hb])

theorem skillMatches_of_nil_mem (cand : List Str) (hmem : ([] : Str) ∈ cand) (r : Str) :
    skillMatches cand r = !r.isEmpty := by
  unfold skillMatches
  cases hr : r.isEmpty
  · simp only [Bool.not_false, Bool.true_and]
    rw [List.any_eq_true]
    exact ⟨[], hmem, by simp [jsIncludes_nil]⟩
  · simp

/-! Claim theorems. -/

/-- C9: `addAudit` produces a log whose first element is the new entry, whose
remaining elements are exactly the prior log unchanged, and whose length grew
by one. -/
theorem addAudit_prepends (id : String) (ts : Nat) (action details : String)
    (prev : List AuditEntry) :
    (addAudit id ts action details prev).head? =
        some ⟨id, action, details, ts⟩ ∧
    (addAudit id ts action details prev).tail = prev ∧
    (addAudit id ts action details prev).length = prev.length + 1 :=
  ⟨rfl, rfl, rfl⟩

/-- C5: for every job and candidate, the score is in `[0, 100]`. -/
theorem score_in_range (j : JobProfile) (c : CandidateProfile) :
    0 ≤ (scoreCandidateFit j c).score ∧ (scoreCandidateFit j c).score ≤ 100 := by
  unfold scoreCandidateFit
  split
  · exact ⟨le_refl 0, by norm_num⟩
  · exact ⟨le_min (by norm_num) (le_max_left 0 _), min_le_left _ _⟩

/-- C7: on `[0, 100]` the decision policy returns `proceed_to_interview`
exactly when the score is at least 80, `needs_review` exactly on `[50, 80)`,
and `reject_draft` exactly below 50; both boundaries belong to the higher
band. -/
theorem decideAction_bands (s : Int) (h0 : 0 ≤ s) (h100 : s ≤ 100) :
    (decideAction s = Decision.proceed_to_interview ↔ 80 ≤ s) ∧
    (decideAction s = Decision.needs_review ↔ 50 ≤ s ∧ s < 80) ∧
    (decideAction s = Decision.reject_draft ↔ s < 50) := by
  unfold decideAction
  split_ifs with h80 h50 <;> simp <;> omega

theorem decideAction_bands_witness :
    0 ≤ (80 : Int) ∧ (80 : Int) ≤ 100 ∧
    (decideAction 80 = Decision.proceed_to_interview ↔ (80 : Int) ≤ 80) :=
  ⟨by norm_num, by norm_num, (decideAction_bands 80 (by norm_num) (by norm_num)).1⟩

/-- C4: Scenario B — job requiring React and Node.js with Docker nice to have
and 3 years minimum, candidate with react and docker and 4 years: exactly one
required match, one nice-to-have match, experience met, score
`20 + 8 + 12 = 40`, and the decision at 40 is `reject_draft`. -/
theorem scenarioB_score_forty :
    reqMatchCount jobB candB = 1 ∧
    niceMatchCount jobB candB = 1 ∧
    expPart jobB.minYearsExperience candB.yearsExperience = (12, [Reason.expMeets 4]) ∧
    (scoreCandidateFit jobB candB).score = 40 ∧
    (scoreCandidateFit jobB candB).reasons =
      [Reason.requiredMatched 1, Reason.niceMatched 1, Reason.expMeets 4] ∧
    decideAction (scoreCandidateFit jobB candB).score = Decision.reject_draft := by
  decide

/-- C10: the reasons list never has more than 3 entries, and is exactly
`["No skills provided"]` when the candidate has no skills. -/
theorem reasons_at_most_three (j : JobProfile) (c : CandidateProfile) :
    (scoreCandidateFit j c).reasons.length ≤ 3 ∧
    (c.skills = [] → (scoreCandidateFit j c).reasons = [Reason.noSkills]) := by
  by_cases h : c.skills = []
  · constructor
    · unfold scoreCandidateFit
      rw [if_pos (by simp [h])]
      simp
    · intro
      unfold scoreCandidateFit
      rw [if_pos (by simp [h])]
  · rw [scoreCandidateFit_of_ne j c h]
    refine ⟨?_, fun hc => absurd hc h⟩
    simp only [List.length_append]
    have h1 : (if reqMatchCount j c ≠ 0 then [Reason.requiredMatched (reqMatchCount j c)]
        else []).length ≤ 1 := by split <;> simp
    have h2 : (if niceMatchCount j c ≠ 0 then [Reason.niceMatched (niceMatchCount j c)]
        else []).length ≤ 1 := by split <;> simp
    have h3 := expPart_reasons_len j.minYearsExperience c.yearsExperience
    omega

theorem reasons_at_most_three_witness :
    (scoreCandidateFit jobEmpty candNoSkills).reasons = [Reason.noSkills] :=
  (reasons_at_most_three jobEmpty candNoSkills).2 rfl

/-- C3 counterexample: a candidate with one skill against a job with no
requirements gets an empty reasons list even though the skills list is
non-empty. -/
theorem reasons_empty_with_skills_cex :
    (scoreCandidateFit jobEmpty candOneSkill).reasons = [] ∧
    candOneSkill.skills ≠ [] := by decide

/-- C3 amended: the reasons list is empty exactly when the candidate has a
non-empty skills list, no required or nice-to-have skill matched, and the
experience factor was skipped; with an empty skills list the reasons list is
the non-empty `["No skills provided"]`. -/
theorem reasons_empty_iff (j : JobProfile) (c : CandidateProfile) :
    (scoreCandidateFit j c).reasons = [] ↔
      (c.skills ≠ [] ∧ reqMatchCount j c = 0 ∧ niceMatchCount j c = 0 ∧
        (expPart j.minYearsExperience c.yearsExperience).2 = []) := by
  by_cases h : c.skills = []
  · unfold scoreCandidateFit
    rw [if_pos (by simp [h])]
    simp [h]
  · rw [scoreCandidateFit_of_ne j c h]
    simp only [List.append_eq_nil]
    constructor
    · rintro ⟨⟨h1, h2⟩, h3⟩
      refine ⟨h, ?_, ?_, h3⟩
      · by_contra hr
        rw [if_pos hr] at h1
        exact List.cons_ne_nil _ _ h1
      · by_contra hr
        rw [if_pos hr] at h2
        exact List.cons_ne_nil _ _ h2
    · rintro ⟨-, h1, h2, h3⟩
      rw [if_neg (by simp [h1]), if_neg (by simp [h2]), h3]
      exact ⟨⟨rfl, rfl⟩, rfl⟩

/-- C1 counterexample: with `minYearsExperience = 0` present and
`yearsExperience = 5` present (and `5 >= 0`), the code awards no 12 points and
emits no experience reason, contradicting the claim that the factor is
evaluated whenever both values are present including zero. -/
theorem experience_zero_skipped_cex :
    jobMinZero.minYearsExperience = some 0 ∧
    candFiveYears.yearsExperience = some 5 ∧
    (scoreCandidateFit jobMinZero candFiveYears).score = 0 ∧
    (scoreCandidateFit jobMinZero candFiveYears).reasons = [] := by decide

/-- C1 amended: the experience factor is evaluated only when both values are
present AND non-zero (JavaScript truthiness); then `12` points and a
meets-threshold reason when `yearsExperience >= minYearsExperience`, else `0`
points and a below-threshold reason.  When either value is absent or zero the
factor contributes no points and no reason. -/
theorem experience_factor_truthy (j : JobProfile) (c : CandidateProfile)
    (h : c.skills ≠ []) :
    (scoreCandidateFit j c).reasons.filter isExpReason =
      (expPart j.minYearsExperience c.yearsExperience).2 ∧
    (scoreCandidateFit j c).score =
      min 100 (max 0 (20 * (reqMatchCount j c : Int) + 8 * (niceMatchCount j c : Int) +
        (expPart j.minYearsExperience c.yearsExperience).1)) ∧
    (∀ m y, j.minYearsExperience = some m → c.yearsExperience = some y →
      m ≠ 0 → y ≠ 0 →
      expPart j.minYearsExperience c.yearsExperience =
        (if m ≤ y then (12, [Reason.expMeets y]) else (0, [Reason.expBelow y m]))) ∧
    ((j.minYearsExperience = none ∨ j.minYearsExperience = some 0 ∨
      c.yearsExperience = none ∨ c.yearsExperience = some 0) →
      expPart j.minYearsExperience c.yearsExperience = (0, [])) := by
  refine ⟨?_, ?_, ?_, ?_⟩
  · rw [scoreCandidateFit_of_ne j c h]
    simp only [List.filter_append]
    rw [expPart_all_exp]
    have h1 : (if reqMatchCount j c ≠ 0 then [Reason.requiredMatched (reqMatchCount j c)]
        else []).filter isExpReason = [] := by split <;> simp [isExpReason]
    have h2 : (if niceMatchCount j c ≠ 0 then [Reason.niceMatched (niceMatchCount j c)]
        else []).filter isExpReason = [] := by split <;> simp [isExpReason]
    rw [h1, h2]
    rfl
  · rw [scoreCandidateFit_of_ne j c h]
  · intro m y hm hy hm0 hy0
    rw [hm, hy]
    simp only [expPart]
    rw [if_neg (by tauto)]
  · intro hd
    rcases hd with h1 | h1 | h1 | h1
    · rw [h1]; cases c.yearsExperience <;> rfl
    · rw [h1]
      cases c.yearsExperience with
      | none => rfl
      | some y => simp [expPart]
    · rw [h1]; cases j.minYearsExperience <;> rfl
    · rw [h1]
      cases j.minYearsExperience with
      | none => rfl
      | some m => simp [expPart]

theorem experience_factor_truthy_witness :
    candB.skills ≠ [] ∧
    (scoreCandidateFit jobB candB).reasons.filter isExpReason =
      (expPart jobB.minYearsExperience candB.yearsExperience).2 :=
  ⟨by decide, (experience_factor_truthy jobB candB (by decide)).1⟩

/-- C2 counterexample: a candidate whose only skill normalizes to the empty
string is counted as matching the required skill React and scores 20 with a
required-match reason, contradicting the claim that malformed entries never
register as matches. -/
theorem malformed_skills_score_cex :
    (∀ s ∈ candMalformed.skills, norm s = []) ∧
    candMalformed.skills ≠ [] ∧
    (scoreCandidateFit jobReactOnly candMalformed).score = 20 ∧
    (scoreCandidateFit jobReactOnly candMalformed).reasons =
      [Reason.requiredMatched 1] := by decide

/-- C2 amended: a non-empty candidate skills list consisting only of entries
that normalize to the empty string registers as a match for EVERY job skill
with a non-empty normalization (the containment check `r.includes(c)` holds
for the empty candidate token), so required and nice-to-have points accrue in
full rather than not at all. -/
theorem malformed_skills_match_all (j : JobProfile) (c : CandidateProfile)
    (hne : c.skills ≠ []) (hall : ∀ s ∈ c.skills, norm s = []) :
    reqMatchCount j c = (j.requiredSkills.map norm).countP (fun r => !r.isEmpty) ∧
    niceMatchCount j c = (j.niceToHaveSkills.map norm).countP (fun r => !r.isEmpty) := by
  have hc := candNorm_all_nil c hne hall
  constructor
  · unfold reqMatchCount
    apply List.countP_congr
    intro r hr
    rw [hc, skillMatches_of_nil_mem [[]] (by simp) r]
  · unfold niceMatchCount
    apply List.countP_congr
    intro r hr
    rw [hc, skillMatches_of_nil_mem [[]] (by simp) r]

theorem malformed_skills_match_all_witness :
    candMalformed.skills ≠ [] ∧ (∀ s ∈ candMalformed.skills, norm s = []) ∧
    reqMatchCount jobReactOnly candMalformed =
      (jobReactOnly.requiredSkills.map norm).countP (fun r => !r.isEmpty) :=
  ⟨by decide, by decide,
    (malformed_skills_match_all jobReactOnly candMalformed (by decide) (by decide)).1⟩

/-- C8: every entry of the required and nice-to-have skill lists produced by
the extractor is non-empty and has no leading or trailing whitespace. -/
theorem extract_skills_clean (text e : Str)
    (h : e ∈ extractRequiredSkills text ∨ e ∈ extractNiceToHaveSkills text) :
    e ≠ [] ∧ headNotWs e = true ∧ lastNotWs e = true := by
  have key : ∀ kw, e ∈ extractSkillList kw text →
      e ≠ [] ∧ headNotWs e = true ∧ lastNotWs e = true := by
    intro kw hm
    unfold extractSkillList at hm
    obtain ⟨hmem, hpred⟩ := List.mem_filter.mp hm
    obtain ⟨x, _, hx⟩ := List.mem_map.mp hmem
    refine ⟨?_, ?_, ?_⟩
    · intro he
      rw [he] at hpred
      simp at hpred
    · rw [← hx]
      exact headNotWs_trimWs x
    · rw [← hx]
      exact lastNotWs_trimWs x
  rcases h with h | h
  · exact key requiredKeywords h
  · exact key niceKeywords h

theorem extract_skills_clean_witness :
    ("React".data) ∈ extractRequiredSkills ("Skills: React, Node".data) ∧
    (("React".data) ≠ [] ∧ headNotWs ("React".data) = true ∧
      lastNotWs ("React".data) = true) :=
  ⟨by decide,
    extract_skills_clean ("Skills: React, Node".data) ("React".data)
      (Or.inl (by decide))⟩

end RecruitCore
